import Mathlib

/-!
Shallow embedding of the human-readable-id codec (src/hrid/hrid.py) and
verification of its specification claims.

Python strings are modelled as Lean String values; string manipulation
(join, split) is carried out on the underlying character lists. Machine
integers are Nat/Int (Python ints are unbounded, so no wrap-around is
modelled). Code that can raise is embedded as Except PyErr.
-/

/-- Failure outcomes of the embedded code. Each constructor corresponds to one
raise site reached by the Python code: rangeError is the ValueError raised by
encode for out-of-range input (hrid.py line 143); formatError covers the two
ValueError raise sites of decode (wrong part count, line 169, and word not
found, line 179); emptySeparator is the ValueError raised by str.split when the
delimiter is the empty string; zeroDivisionError is the ZeroDivisionError
raised inside mod_inverse when the modulus is 0; emptyRandintRange is the
ValueError raised by random.randint on an empty range in the seeded coprime
search when space_size is 0. The source defines no error classes of its own
(no ConfigurationError exists in the code). -/
inductive PyErr where
  | rangeError
  | formatError
  | emptySeparator
  | zeroDivisionError
  | emptyRandintRange
deriving DecidableEq

/-- An element specification as accepted by the constructor: either a string
(a key into the word-list mapping, or a literal single word) or a literal list
of words. -/
inductive ElementSpec where
  | name (s : String)
  | list (ws : List String)
deriving DecidableEq

/-- The codec state after construction (class HRID): delimiter, resolved
elements, scramble flag, space size, scramble multiplier and its modular
inverse. The random generator used only by generate, and the stored scramble
seed (unused after construction), are omitted. -/
structure HRID where
  delimiter : String
  elements : List (List String)
  scramble : Bool
  space_size : Nat
  scramble_multiplier : Nat
  scramble_inverse : Nat
deriving DecidableEq

/-! ## String helpers: Python join and split on character lists -/

/-- Python str.join over character lists: concatenate the pieces with the
separator between consecutive pieces. -/
def joinList (sep : List Char) : List (List Char) → List Char
  | [] => []
  | [w] => w
  | w :: rest => w ++ sep ++ joinList sep rest

/-- Whether sep occurs as a prefix of s (character-wise). -/
def listIsPrefix : List Char → List Char → Bool
  | [], _ => true
  | _ :: _, [] => false
  | a :: as, b :: bs => a == b && listIsPrefix as bs

/-- Index of the leftmost occurrence of sep inside s, if any. -/
def findSub (sep : List Char) : List Char → Option Nat
  | [] => if listIsPrefix sep [] then some 0 else none
  | a :: t => if listIsPrefix sep (a :: t) then some 0 else (findSub sep (t)).map (· + 1)

/-- Fuel-driven worker for Python str.split with a non-empty separator:
repeatedly cut at the leftmost occurrence of sep. Each recursive call
consumes at least one character, so fuel larger than the length of s makes
the fuel bound unreachable. -/
def pySplitGo (sep : List Char) : Nat → List Char → List (List Char)
  | 0, s => [s]
  | fuel + 1, s =>
    match findSub sep s with
    | none => [s]
    | some i => s.take i :: pySplitGo sep fuel (s.drop (i + sep.length))

/-- Python str.split on character lists (separator assumed non-empty). -/
def pySplitList (sep s : List Char) : List (List Char) :=
  pySplitGo sep (s.length + 1) s

/-- Python sep.join(parts) on String values. -/
def pyJoin (sep : String) (parts : List String) : String :=
  ⟨joinList sep.toList (parts.map String.toList)⟩

/-- Python s.split(sep) on String values: raises ValueError on an empty
separator, otherwise splits at each leftmost non-overlapping occurrence. -/
def pySplit (sep s : String) : Except PyErr (List String) :=
  if sep.toList = [] then .error .emptySeparator
  else .ok ((pySplitList sep.toList s.toList).map String.mk)

/-- Python list.index: position of the first occurrence, if present. -/
def pyIndex : List String → String → Option Nat
  | [], _ => none
  | x :: xs, w => if x = w then some 0 else (pyIndex xs w).map (· + 1)

/-! ## Extended Euclid and modular inverse (hrid.py lines 8..17) -/

/-- Fuel-driven extended Euclidean algorithm, the inner extended_gcd of
mod_inverse: returns (gcd, x, y) with a * x + b * y = gcd. The recursion
replaces (a, b) by (b mod a, a), so the first argument strictly decreases;
fuel greater than a makes the fuel bound unreachable and the function equal
to the unbounded Python recursion. -/
def egcdGo : Nat → Nat → Nat → Nat × Int × Int
  | 0, _, b => (b, 0, 1)
  | fuel + 1, a, b =>
    if a = 0 then (b, 0, 1)
    else
      let r := egcdGo fuel (b % a) a
      (r.1, r.2.2 - ((b / a : Nat) : Int) * r.2.1, r.2.1)

/-- extended_gcd of the source, with sufficient fuel. -/
def extended_gcd (a b : Nat) : Nat × Int × Int :=
  egcdGo (a + 1) a b

/-- mod_inverse of the source: the Bezout coefficient of a mod m normalized
into [0, m). The first operation a mod m raises ZeroDivisionError when m is
zero. -/
def mod_inverse (a m : Nat) : Except PyErr Nat :=
  if m = 0 then .error .zeroDivisionError
  else
    .ok (((extended_gcd (a % m) m).2.1 % (m : Int) + (m : Int)) % (m : Int)).toNat

/-! ## Coprime selection (hrid.py lines 66..90) -/

/-- The shared loop shape of find_coprime: first candidate coprime to n. -/
def firstCoprime (n : Nat) : List Nat → Option Nat
  | [] => none
  | c :: cs => if Nat.gcd c n = 1 then some c else firstCoprime n cs

/-- The unseeded part of find_coprime: try the four fixed constants, then
scan the range [n / 2, n), and finally fall back to 1. -/
def fallbackCoprime (n : Nat) : Nat :=
  match firstCoprime n [2654435769, 1640531527, 2166136261, 16777619] with
  | some c => c
  | none =>
    match firstCoprime n (List.range' (n / 2) (n - n / 2)) with
    | some c => c
    | none => 1

/-- find_coprime of the source. The seeded branch draws 1000 candidates from
a pseudo-random source; the Mersenne-Twister generator is modelled as an
arbitrary candidate stream rng (the source draws rng i from randint, which
raises ValueError on the empty range when n = 0). If none of the 1000
candidates is coprime, control falls through to the unseeded constants. -/
def find_coprime (n : Nat) (seed : Option (Nat → Nat)) : Except PyErr Nat :=
  match seed with
  | some rng =>
    if n = 0 then .error .emptyRandintRange
    else
      match firstCoprime n ((List.range 1000).map rng) with
      | some c => .ok c
      | none => .ok (fallbackCoprime n)
  | none => .ok (fallbackCoprime n)

/-! ## Construction (hrid.py lines 23..64, 92..110) -/

/-- HRID.DEFAULT_ELEMENTS of the source. -/
def HRID.DEFAULT_ELEMENTS : List ElementSpec :=
  [.name ("adjective"), .name ("noun"), .name ("verb"), .name ("adverb")]

/-- Modelled from the spec: the built-in WORD_LISTS mapping imported from
hrid.word_lists, whose defining module is not among the available sources.
The spec treats its content as static data outside the core algorithm; only
the presence of the four default category keys with non-empty word lists is
relied on, so each is represented by a non-empty stand-in list. -/
def DEFAULT_WORD_LISTS : List (String × List String) :=
  [("adjective", ["adjective"]), ("noun", ["noun"]),
   ("verb", ["verb"]), ("adverb", ["adverb"])]

/-- First-match lookup in a key/value list (Python dict access). -/
def lookupWL : List (String × List String) → String → Option (List String)
  | [], _ => none
  | (k, v) :: rest, key => if k = key then some v else lookupWL rest key

/-- transform_element of the source: a string key present in the mapping is
replaced by its word list, an absent string key becomes a singleton literal
list, and a literal list is used as is. -/
def transform_element (wl : List (String × List String)) : ElementSpec → List String
  | .name s =>
    match lookupWL wl s with
    | some ws => ws
    | none => [s]
  | .list ws => ws

/-- The word_lists-or-default step of the constructor: Python
word_lists or DEFAULT_WORD_LISTS replaces both None and an empty mapping. -/
def resolveWordLists : Option (List (String × List String)) → List (String × List String)
  | none => DEFAULT_WORD_LISTS
  | some m => if m.isEmpty then DEFAULT_WORD_LISTS else m

/-- The elements-or-default and per-element transformation steps of the
constructor: Python elements or DEFAULT_ELEMENTS replaces both None and an
empty sequence. -/
def resolveElements (wl : List (String × List String)) (els : Option (List ElementSpec)) :
    List (List String) :=
  (match els with
   | none => HRID.DEFAULT_ELEMENTS
   | some l => if l.isEmpty then HRID.DEFAULT_ELEMENTS else l).map (transform_element wl)

/-- The HRID constructor: resolve elements, compute space_size as the product
of the element lengths, then choose the scramble multiplier and its modular
inverse (both are computed whether or not scrambling is enabled). -/
def mkHRID (delimiter : String) (elements : Option (List ElementSpec))
    (word_lists : Option (List (String × List String))) (scramble : Bool)
    (scramble_seed : Option (Nat → Nat)) : Except PyErr HRID :=
  let wl := resolveWordLists word_lists
  let els := resolveElements wl elements
  let space := (els.map List.length).prod
  match find_coprime space scramble_seed with
  | .error e => .error e
  | .ok mult =>
    match mod_inverse mult space with
    | .error e => .error e
    | .ok inv => .ok ⟨delimiter, els, scramble, space, mult, inv⟩

/-! ## encode and decode (hrid.py lines 130..186) -/

/-- The mixed-radix loop of encode, walking the already-reversed element
list: emit the word indexed by n mod base, continue with n div base. -/
def encodeParts : Nat → List (List String) → List String
  | _, [] => []
  | n, ws :: rest => ws.getD (n % ws.length) ("") :: encodeParts (n / ws.length) rest

/-- HRID.encode: range-check, scramble if enabled, decompose into mixed-radix
digits over the reversed elements, and join the words most-significant
first. -/
def HRID.encode (h : HRID) (n : Int) : Except PyErr String :=
  if 0 ≤ n ∧ n < (h.space_size : Int) then
    let m : Nat := n.toNat
    let m1 : Nat := if h.scramble then m * h.scramble_multiplier % h.space_size else m
    .ok (pyJoin h.delimiter (encodeParts m1 h.elements.reverse).reverse)
  else .error .rangeError

/-- The Horner loop of decode over part/element pairs: look each part up in
its word list (ValueError when absent) and fold n * base + idx. -/
def decodeCompose : Nat → List (String × List String) → Except PyErr Nat
  | n, [] => .ok n
  | n, (part, ws) :: rest =>
    match pyIndex ws part with
    | none => .error .formatError
    | some idx => decodeCompose (n * ws.length + idx) rest

/-- HRID.decode: split on the delimiter, check the part count, compose the
mixed-radix value, and unscramble if enabled. -/
def HRID.decode (h : HRID) (hrid : String) : Except PyErr Int :=
  match pySplit h.delimiter hrid with
  | .error e => .error e
  | .ok parts =>
    if parts.length = h.elements.length then
      match decodeCompose 0 (parts.zip h.elements) with
      | .error e => .error e
      | .ok n0 =>
        .ok ((if h.scramble then n0 * h.scramble_inverse % h.space_size else n0 : Nat) : Int)
    else .error .formatError

/-- Whether an Except value is a success. -/
def exceptOk {ε α : Type} : Except ε α → Bool
  | .ok _ => true
  | .error _ => false

/-- Mixed-radix digits by repeated division, least significant first, one
digit per base. -/
def toDigits : Nat → List Nat → List Nat
  | _, [] => []
  | n, b :: bs => n % b :: toDigits (n / b) bs

/-- The plain mixed-radix decomposition as the spec words it, named
separately so that encode can be compared against it: process elements from
least significant (last in configured order) to most significant, taking
digit = n mod base and n = n div base at each step; each digit indexes its
element word list; collect the words in original most-significant-first
order and join with the delimiter. No permutation is applied. -/
def specMixedRadixEncode (delim : String) (els : List (List String)) (n : Nat) : String :=
  pyJoin delim
    (List.zipWith (fun ws d => ws.getD d ("")) els.reverse
      (toDigits n (els.reverse.map List.length))).reverse

/-! ## Correctness of the extended Euclidean algorithm -/

/-- With sufficient fuel, egcdGo returns the gcd together with Bezout
coefficients. -/
theorem egcdGo_spec : ∀ (fuel a b : Nat), a < fuel →
    (egcdGo fuel a b).1 = Nat.gcd a b ∧
    (a : Int) * (egcdGo fuel a b).2.1 + (b : Int) * (egcdGo fuel a b).2.2
      = (Nat.gcd a b : Int) := by
  intro fuel
  induction fuel with
  | zero => intro a b hab; omega
  | succ f ih =>
    intro a b hab
    by_cases ha : a = 0
    · subst ha; simp [egcdGo]
    · have hpos : 0 < a := Nat.pos_of_ne_zero ha
      have hrec := ih (b % a) a (by have := Nat.mod_lt b hpos; omega)
      rcases hE : egcdGo f (b % a) a with ⟨g, x1, y1⟩
      rw [hE] at hrec
      have hgcd : Nat.gcd (b % a) a = Nat.gcd a b := by
        rw [← Nat.gcd_rec a b]
      simp only [egcdGo, ha, if_false, hE]
      constructor
      · exact hrec.1.trans hgcd
      · have hdm : (a : Int) * ((b / a : Nat) : Int) + ((b % a : Nat) : Int) = (b : Int) := by
          exact_mod_cast Nat.div_add_mod b a
        have hb := hrec.2
        rw [hgcd] at hb
        linear_combination hb - x1 * hdm

/-- extended_gcd returns the gcd together with Bezout coefficients. -/
theorem extended_gcd_spec (a b : Nat) :
    (extended_gcd a b).1 = Nat.gcd a b ∧
    (a : Int) * (extended_gcd a b).2.1 + (b : Int) * (extended_gcd a b).2.2
      = (Nat.gcd a b : Int) :=
  egcdGo_spec (a + 1) a b (Nat.lt_succ_self a)

/-- A successful mod_inverse result is strictly below the modulus. -/
theorem mod_inverse_lt {a m v : Nat} (hv : mod_inverse a m = .ok v) : v < m := by
  unfold mod_inverse at hv
  by_cases hm : m = 0
  · simp [hm] at hv
  · have hmpos : (0 : Int) < (m : Int) := by exact_mod_cast Nat.pos_of_ne_zero hm
    simp only [hm, if_false, Except.ok.injEq] at hv
    have hlt := Int.emod_lt_of_pos
      ((extended_gcd (a % m) m).2.1 % (m : Int) + (m : Int)) hmpos
    have hnn := Int.emod_nonneg
      ((extended_gcd (a % m) m).2.1 % (m : Int) + (m : Int))
      (Int.natCast_ne_zero.mpr hm)
    omega

/-- A successful mod_inverse of a value coprime to the modulus is a modular
multiplicative inverse. -/
theorem mod_inverse_modeq {a m v : Nat} (hg : Nat.gcd a m = 1)
    (hv : mod_inverse a m = .ok v) : a * v ≡ 1 [MOD m] := by
  unfold mod_inverse at hv
  by_cases hm : m = 0
  · simp [hm] at hv
  · have hmpos : (0 : Int) < (m : Int) := by exact_mod_cast Nat.pos_of_ne_zero hm
    have hmne : (m : Int) ≠ 0 := Int.natCast_ne_zero.mpr hm
    simp only [hm, if_false, Except.ok.injEq] at hv
    have hbez := (extended_gcd_spec (a % m) m).2
    rcases hE : extended_gcd (a % m) m with ⟨g, x, y⟩
    rw [hE] at hbez hv
    have hgcd2 : Nat.gcd (a % m) m = 1 := by
      rw [← Nat.gcd_rec m a, Nat.gcd_comm]
      exact hg
    rw [hgcd2, Nat.cast_one] at hbez
    -- the normalized result, as an integer
    have hvz : (v : Int) = x % (m : Int) := by
      rw [← hv]
      have h1 : (x % (m : Int) + (m : Int)) % (m : Int) = x % (m : Int) % (m : Int) := by
        have h0 := @Int.add_mul_emod_self_left (x % (m : Int)) (m : Int) 1
        rwa [Int.mul_one] at h0
      have h2 : x % (m : Int) % (m : Int) = x % (m : Int) :=
        Int.emod_emod_of_dvd x dvd_rfl
      rw [h1, h2]
      exact Int.toNat_of_nonneg (Int.emod_nonneg x hmne)
    rw [← Int.natCast_modEq_iff]
    push_cast
    have e1 : (a : Int) * (v : Int) ≡ ((a % m : Nat) : Int) * x [ZMOD (m : Int)] := by
      rw [hvz]
      have ha : (a : Int) ≡ ((a % m : Nat) : Int) [ZMOD (m : Int)] := by
        rw [Int.natCast_mod]
        exact (Int.emod_emod_of_dvd a dvd_rfl).symm
      have hxx : x % (m : Int) ≡ x [ZMOD (m : Int)] :=
        Int.emod_emod_of_dvd x dvd_rfl
      exact ha.mul hxx
    have e2 : ((a % m : Nat) : Int) * x ≡ 1 [ZMOD (m : Int)] := by
      have hmy : ((m : Int)) * y ≡ 0 [ZMOD (m : Int)] := by
        unfold Int.ModEq
        simp [Int.mul_emod_right]
      have hsub : ((a % m : Nat) : Int) * x = 1 - (m : Int) * y := by linarith [hbez]
      rw [hsub]
      calc 1 - (m : Int) * y ≡ 1 - 0 [ZMOD (m : Int)] := Int.ModEq.sub (Int.ModEq.refl 1) hmy
        _ = 1 := by ring
    exact e1.trans e2

/-! ## The coprime search always returns a coprime -/

/-- Whatever firstCoprime returns is coprime to n. -/
theorem firstCoprime_gcd {n c : Nat} : ∀ {l : List Nat},
    firstCoprime n l = some c → Nat.gcd c n = 1 := by
  intro l
  induction l with
  | nil => intro hc; simp [firstCoprime] at hc
  | cons x xs ih =>
    intro hc
    unfold firstCoprime at hc
    by_cases hx : Nat.gcd x n = 1
    · simp only [hx, if_true, Option.some.injEq] at hc; subst hc; exact hx
    · simp only [hx, if_false] at hc; exact ih hc

/-- The unseeded fallback always returns a coprime (the final constant 1 is
coprime to every n). -/
theorem fallbackCoprime_gcd (n : Nat) : Nat.gcd (fallbackCoprime n) n = 1 := by
  unfold fallbackCoprime
  rcases h1 : firstCoprime n [2654435769, 1640531527, 2166136261, 16777619] with _ | c
  · rcases h2 : firstCoprime n (List.range' (n / 2) (n - n / 2)) with _ | c
    · simp only [h1, h2]; exact Nat.gcd_one_left n
    · simp only [h1, h2]; exact firstCoprime_gcd h2
  · simp only [h1]; exact firstCoprime_gcd h1

/-- Every multiplier returned by find_coprime is coprime to n, on every
search path. -/
theorem find_coprime_gcd {n c : Nat} {seed : Option (Nat → Nat)}
    (hc : find_coprime n seed = .ok c) : Nat.gcd c n = 1 := by
  unfold find_coprime at hc
  rcases seed with _ | rng
  · simp only [Except.ok.injEq] at hc; subst hc; exact fallbackCoprime_gcd n
  · by_cases hn : n = 0
    · simp [hn] at hc
    · simp only [hn, if_false] at hc
      rcases hf : firstCoprime n ((List.range 1000).map rng) with _ | c'
      · rw [hf] at hc
        simp only [Except.ok.injEq] at hc; subst hc; exact fallbackCoprime_gcd n
      · rw [hf] at hc
        simp only [Except.ok.injEq] at hc; subst hc; exact firstCoprime_gcd hf

/-! ## What a successful construction guarantees -/

/-- Element resolution never yields an empty element list: an empty or absent
elements argument is replaced by the four default elements. -/
theorem resolveElements_ne_nil (wl : List (String × List String))
    (els : Option (List ElementSpec)) : resolveElements wl els ≠ [] := by
  unfold resolveElements
  rcases els with _ | l
  · simp [HRID.DEFAULT_ELEMENTS]
  · by_cases hl : l.isEmpty
    · simp [hl, HRID.DEFAULT_ELEMENTS]
    · simp only [hl, if_false, ne_eq, List.map_eq_nil_iff]
      intro h
      subst h
      simp at hl

/-- Everything a successful construction pins down: the stored fields, the
space-size product, its positivity, coprimality of the multiplier, and the
inverse computation. -/
theorem mkHRID_ok {d : String} {els : Option (List ElementSpec)}
    {wl : Option (List (String × List String))} {scr : Bool}
    {ss : Option (Nat → Nat)} {h : HRID}
    (hmk : mkHRID d els wl scr ss = .ok h) :
    h.delimiter = d ∧
    h.elements = resolveElements (resolveWordLists wl) els ∧
    h.scramble = scr ∧
    h.space_size = (h.elements.map List.length).prod ∧
    0 < h.space_size ∧
    Nat.gcd h.scramble_multiplier h.space_size = 1 ∧
    mod_inverse h.scramble_multiplier h.space_size = .ok h.scramble_inverse := by
  simp only [mkHRID] at hmk
  split at hmk
  · exact Except.noConfusion hmk
  · rename_i mult hfc
    split at hmk
    · exact Except.noConfusion hmk
    · rename_i inv hmi
      simp only [Except.ok.injEq] at hmk
      subst hmk
      have hsz : ((resolveElements (resolveWordLists wl) els).map List.length).prod ≠ 0 := by
        intro h0
        rw [h0] at hmi
        simp [mod_inverse] at hmi
      refine ⟨rfl, rfl, rfl, rfl, Nat.pos_of_ne_zero hsz, find_coprime_gcd hfc, hmi⟩

/-- In a successfully constructed codec every element word list is
non-empty. -/
theorem mkHRID_elements_ne_nil {d : String} {els : Option (List ElementSpec)}
    {wl : Option (List (String × List String))} {scr : Bool}
    {ss : Option (Nat → Nat)} {h : HRID}
    (hmk : mkHRID d els wl scr ss = .ok h) :
    ∀ ws ∈ h.elements, ws ≠ [] := by
  obtain ⟨-, -, -, hprod, hpos, -, -⟩ := mkHRID_ok hmk
  intro ws hws hnil
  subst hnil
  rw [hprod] at hpos
  have : (0 : Nat) ∈ h.elements.map List.length :=
    List.mem_map.mpr ⟨[], hws, rfl⟩
  have := List.prod_eq_zero this
  omega

/-! ## The mixed-radix loops invert each other -/

/-- encode emits exactly one word per element. -/
theorem encodeParts_length : ∀ (n : Nat) (L : List (List String)),
    (encodeParts n L).length = L.length := by
  intro n L
  induction L generalizing n with
  | nil => rfl
  | cons ws rest ih => simp [encodeParts, ih]

/-- Every word emitted by the encode loop belongs to its element list
(element lists being non-empty keeps the index in bounds). -/
theorem encodeParts_mem {L : List (List String)} (hL : ∀ ws ∈ L, ws ≠ []) :
    ∀ (n : Nat), ∀ w ∈ encodeParts n L, ∃ ws ∈ L, w ∈ ws := by
  induction L with
  | nil => intro n w hw; simp [encodeParts] at hw
  | cons ws rest ih =>
    intro n w hw
    have hne : ws ≠ [] := hL ws (List.mem_cons_self ws rest)
    have hpos : 0 < ws.length := List.length_pos.mpr hne
    simp only [encodeParts, List.mem_cons] at hw
    rcases hw with hw | hw
    · refine ⟨ws, List.mem_cons_self ws rest, ?_⟩
      subst hw
      have hlt : n % ws.length < ws.length := Nat.mod_lt n hpos
      rw [List.getD_eq_getElem?_getD, List.getElem?_eq_getElem hlt]
      exact List.getElem_mem hlt
    · obtain ⟨ws', hws', hmem⟩ := ih (fun u hu => hL u (List.mem_cons_of_mem ws hu)) (n / ws.length) w hw
      exact ⟨ws', List.mem_cons_of_mem ws hws', hmem⟩

/-- On a duplicate-free word list, looking up the word at index d returns d. -/
theorem pyIndex_getD : ∀ {ws : List String}, ws.Nodup → ∀ {d : Nat}, d < ws.length →
    pyIndex ws (ws.getD d ("")) = some d := by
  intro ws
  induction ws with
  | nil => intro _ d hd; simp at hd
  | cons x xs ih =>
    intro hnd d hd
    cases d with
    | zero => simp [pyIndex]
    | succ d =>
      have hdx : d < xs.length := by simpa using hd
      have hget : (x :: xs).getD (d + 1) ("") = xs.getD d ("") := by
        simp
      rw [hget]
      have hxmem : xs.getD d ("") ∈ xs := by
        rw [List.getD_eq_getElem?_getD, List.getElem?_eq_getElem hdx]
        exact List.getElem_mem hdx
      have hxne : x ≠ xs.getD d ("") := by
        intro hx
        exact (List.nodup_cons.mp hnd).1 (hx ▸ hxmem)
      simp only [pyIndex, hxne, if_false]
      rw [ih (List.nodup_cons.mp hnd).2 hdx]
      rfl

/-- The Horner loop distributes over list append, threading the accumulator
through a successful first half. -/
theorem decodeCompose_append_ok : ∀ {l₁ : List (String × List String)} {acc m : Nat},
    decodeCompose acc l₁ = .ok m → ∀ (l₂ : List (String × List String)),
    decodeCompose acc (l₁ ++ l₂) = decodeCompose m l₂ := by
  intro l₁
  induction l₁ with
  | nil =>
    intro acc m hm l₂
    simp only [decodeCompose, Except.ok.injEq] at hm
    subst hm
    rfl
  | cons p t ih =>
    intro acc m hm l₂
    rcases p with ⟨part, ws⟩
    simp only [decodeCompose] at hm ⊢
    rcases hpi : pyIndex ws part with _ | idx
    · rw [hpi] at hm; exact Except.noConfusion hm
    · rw [hpi] at hm
      simp only [hpi]
      exact ih hm l₂

/-- Core inversion: the decode Horner loop, fed the words emitted by the
encode loop (in display order, paired with the elements in configured
order), recovers the encoded value. L is the reversed element list the
encode loop walks. -/
theorem decodeCompose_encodeParts :
    ∀ (L : List (List String)) (n : Nat),
      (∀ ws ∈ L, ws ≠ [] ∧ ws.Nodup) → n < (L.map List.length).prod →
      decodeCompose 0 ((encodeParts n L).reverse.zip L.reverse) = .ok n := by
  intro L
  induction L with
  | nil =>
    intro n _ hn
    simp only [List.map_nil, List.prod_nil, Nat.lt_one_iff] at hn
    subst hn
    rfl
  | cons ws rest ih =>
    intro n hL hn
    have hws := hL ws (List.mem_cons_self ws rest)
    have hpos : 0 < ws.length := List.length_pos.mpr hws.1
    have hprod : n < ws.length * ((rest.map List.length).prod) := by
      simpa [List.map_cons, List.prod_cons] using hn
    have hdiv : n / ws.length < (rest.map List.length).prod :=
      (Nat.div_lt_iff_lt_mul hpos).mpr (by rw [Nat.mul_comm]; exact hprod)
    have hrest : ∀ u ∈ rest, u ≠ [] ∧ u.Nodup :=
      fun u hu => hL u (List.mem_cons_of_mem ws hu)
    have hih := ih (n / ws.length) hrest hdiv
    have hlen : (encodeParts (n / ws.length) rest).reverse.length = rest.reverse.length := by
      simp [encodeParts_length]
    simp only [encodeParts, List.reverse_cons]
    rw [List.zip_append hlen]
    rw [decodeCompose_append_ok hih]
    have hmod : n % ws.length < ws.length := Nat.mod_lt n hpos
    simp only [List.zip_cons_cons, List.zip_nil_right, decodeCompose,
      pyIndex_getD hws.2 hmod]
    rw [Nat.mul_comm, Nat.div_add_mod]

/-! ## Scrambling arithmetic -/

/-- Multiplying by the multiplier mod the space size and then by its inverse
mod the space size is the identity on the value range. -/
theorem unscramble_scramble {mult inv sz m : Nat}
    (hmi : mult * inv ≡ 1 [MOD sz]) (hm : m < sz) :
    m * mult % sz * inv % sz = m := by
  have h1 : m * mult % sz * inv ≡ m * mult * inv [MOD sz] :=
    Nat.ModEq.mul_right inv (Nat.mod_modEq (m * mult) sz)
  have h2 : m * mult * inv = m * (mult * inv) := by ring
  have h3 : m * (mult * inv) ≡ m * 1 [MOD sz] := Nat.ModEq.mul_left m hmi
  have hall : m * mult % sz * inv ≡ m [MOD sz] := by
    calc m * mult % sz * inv ≡ m * mult * inv [MOD sz] := h1
      _ = m * (mult * inv) := h2
      _ ≡ m * 1 [MOD sz] := h3
      _ = m := by ring
  have := hall
  unfold Nat.ModEq at this
  rwa [Nat.mod_eq_of_lt hm] at this

/-! ## Split inverts join for a one-character delimiter absent from all parts -/

/-- A character not occurring in s never matches as a one-character
separator. -/
theorem findSub_single_of_not_mem {c : Char} : ∀ {s : List Char}, c ∉ s →
    findSub [c] s = none := by
  intro s
  induction s with
  | nil => intro _; rfl
  | cons a t ih =>
    intro hmem
    have hne : c ≠ a := fun h => hmem (h ▸ List.mem_cons_self a t)
    have hp : listIsPrefix [c] (a :: t) = false := by
      simp [listIsPrefix, hne]
    simp [findSub, hp, ih (fun h => hmem (List.mem_cons_of_mem a h))]

/-- The leftmost occurrence of a one-character separator after a clean piece
w is exactly at position w.length. -/
theorem findSub_single_append {c : Char} : ∀ (w t : List Char), c ∉ w →
    findSub [c] (w ++ c :: t) = some w.length := by
  intro w
  induction w with
  | nil => intro t _; simp [findSub, listIsPrefix]
  | cons a w ih =>
    intro t hmem
    have hne : c ≠ a := fun h => hmem (h ▸ List.mem_cons_self a w)
    have hp : listIsPrefix [c] (a :: (w ++ c :: t)) = false := by
      simp [listIsPrefix, hne]
    simp [findSub, hp, ih t (fun h => hmem (List.mem_cons_of_mem a h))]

/-- With sufficient fuel, splitting the join of clean pieces on a
one-character separator recovers the pieces. -/
theorem pySplitGo_join {c : Char} : ∀ (ws : List (List Char)), ws ≠ [] →
    (∀ w ∈ ws, c ∉ w) → ∀ (fuel : Nat), (joinList [c] ws).length < fuel →
    pySplitGo [c] fuel (joinList [c] ws) = ws := by
  intro ws
  induction ws with
  | nil => intro h; exact absurd rfl h
  | cons w rest ih =>
    intro _ hmem fuel hfuel
    cases rest with
    | nil =>
      cases fuel with
      | zero => exact absurd hfuel (Nat.not_lt_zero _)
      | succ f =>
        have hfs : findSub [c] w = none :=
          findSub_single_of_not_mem (hmem w (List.mem_cons_self w []))
        show pySplitGo [c] (f + 1) (joinList [c] [w]) = [w]
        have hJ : joinList [c] [w] = w := rfl
        rw [hJ]
        simp [pySplitGo, hfs]
    | cons w2 rest2 =>
      have hJ : joinList [c] (w :: w2 :: rest2)
          = w ++ c :: joinList [c] (w2 :: rest2) := by
        show w ++ [c] ++ joinList [c] (w2 :: rest2) = _
        simp
      cases fuel with
      | zero => exact absurd hfuel (Nat.not_lt_zero _)
      | succ f =>
        rw [hJ] at hfuel ⊢
        have hcw : c ∉ w := hmem w (List.mem_cons_self w (w2 :: rest2))
        have hfs := findSub_single_append w (joinList [c] (w2 :: rest2)) hcw
        simp only [pySplitGo, hfs, List.length_cons, List.length_nil]
        have htake : (w ++ c :: joinList [c] (w2 :: rest2)).take w.length = w :=
          List.take_left w (c :: joinList [c] (w2 :: rest2))
        have hsplit : w ++ c :: joinList [c] (w2 :: rest2)
            = (w ++ [c]) ++ joinList [c] (w2 :: rest2) := by simp
        have hdrop : (w ++ c :: joinList [c] (w2 :: rest2)).drop (w.length + (0 + 1))
            = joinList [c] (w2 :: rest2) := by
          rw [hsplit]
          have hl : (w ++ [c]).length = w.length + (0 + 1) := by simp
          rw [← hl]
          exact List.drop_left _ _
        rw [htake, hdrop]
        have hlen2 : (joinList [c] (w2 :: rest2)).length < f := by
          have : (w ++ c :: joinList [c] (w2 :: rest2)).length
              = w.length + ((joinList [c] (w2 :: rest2)).length + 1) := by simp
          omega
        rw [ih (by simp) (fun u hu => hmem u (List.mem_cons_of_mem w hu)) f hlen2]

/-- Splitting the join of clean pieces on a one-character separator recovers
the pieces. -/
theorem pySplitList_join {c : Char} (ws : List (List Char)) (hne : ws ≠ [])
    (hmem : ∀ w ∈ ws, c ∉ w) : pySplitList [c] (joinList [c] ws) = ws :=
  pySplitGo_join ws hne hmem _ (Nat.lt_succ_self _)

/-- Rebuilding a string from its character list is the identity. -/
theorem mk_toList (s : String) : String.mk s.toList = s := rfl

/-- The character list of a rebuilt string is the original list. -/
theorem toList_mk (l : List Char) : (String.mk l).toList = l := rfl

/-- String-level inversion: pySplit undoes pyJoin when the delimiter is a
single character occurring in no part. -/
theorem pySplit_pyJoin {sep : String} {c : Char} (hsep : sep.toList = [c])
    (parts : List String) (hne : parts ≠ []) (hmem : ∀ p ∈ parts, c ∉ p.toList) :
    pySplit sep (pyJoin sep parts) = .ok parts := by
  unfold pySplit pyJoin
  simp only [hsep, toList_mk]
  rw [if_neg (by simp)]
  have hmapne : parts.map String.toList ≠ [] := by
    intro h
    exact hne (List.map_eq_nil_iff.mp h)
  have hmapmem : ∀ w ∈ parts.map String.toList, c ∉ w := by
    intro w hw
    obtain ⟨p, hp, rfl⟩ := List.mem_map.mp hw
    exact hmem p hp
  rw [pySplitList_join (parts.map String.toList) hmapne hmapmem]
  rw [List.map_map]
  have hid : String.mk ∘ String.toList = id := funext mk_toList
  rw [hid, List.map_id]

/-! ## The full round trip -/

/-- In-range encode always succeeds, and its output is the join of the
mixed-radix words of the (possibly scrambled) value. -/
theorem encode_ok (h : HRID) (n : Nat) (hn : n < h.space_size) :
    h.encode (n : Int) = .ok (pyJoin h.delimiter
      (encodeParts (if h.scramble then n * h.scramble_multiplier % h.space_size else n)
        h.elements.reverse).reverse) := by
  simp only [HRID.encode]
  rw [if_pos ⟨Int.natCast_nonneg n, by exact_mod_cast hn⟩]
  simp only [Int.toNat_natCast]

/-- Decode inverts encode on every constructed codec whose delimiter is a
single character, provided that character occurs in no word and each element
word list is duplicate-free. -/
theorem decode_encode {d : String} {els : Option (List ElementSpec)}
    {wl : Option (List (String × List String))} {scr : Bool}
    {ss : Option (Nat → Nat)} {h : HRID}
    (hmk : mkHRID d els wl scr ss = .ok h)
    {c : Char} (hdel : h.delimiter.toList = [c])
    (hnd : ∀ ws ∈ h.elements, ws.Nodup)
    (hfree : ∀ ws ∈ h.elements, ∀ w ∈ ws, c ∉ w.toList)
    {n : Nat} (hn : n < h.space_size) {s : String}
    (henc : h.encode (n : Int) = .ok s) :
    h.decode s = .ok (n : Int) := by
  obtain ⟨hd, hels, hscr, hprod, hpos, hgcd, hinv⟩ := mkHRID_ok hmk
  set m1 := (if h.scramble then n * h.scramble_multiplier % h.space_size else n) with hm1def
  have hm1 : m1 < h.space_size := by
    rw [hm1def]
    split
    · exact Nat.mod_lt _ hpos
    · exact hn
  have hsval : pyJoin h.delimiter (encodeParts m1 h.elements.reverse).reverse = s := by
    rw [encode_ok h n hn] at henc
    injection henc
  set W := (encodeParts m1 h.elements.reverse).reverse with hW
  have hlen : W.length = h.elements.length := by
    rw [hW]
    simp [encodeParts_length]
  have helne : h.elements ≠ [] := by
    rw [hels]
    exact resolveElements_ne_nil _ _
  have hWne : W ≠ [] := by
    intro h0
    rw [h0] at hlen
    simp only [List.length_nil] at hlen
    exact helne (List.length_eq_zero.mp hlen.symm)
  have hWmem : ∀ p ∈ W, c ∉ p.toList := by
    intro p hp
    rw [hW, List.mem_reverse] at hp
    obtain ⟨ws, hws, hpws⟩ := encodeParts_mem
      (fun u hu => mkHRID_elements_ne_nil hmk u (List.mem_reverse.mp hu)) m1 p hp
    exact hfree ws (List.mem_reverse.mp hws) p hpws
  have hcond : ∀ ws ∈ h.elements.reverse, ws ≠ [] ∧ ws.Nodup := by
    intro ws hws
    exact ⟨mkHRID_elements_ne_nil hmk ws (List.mem_reverse.mp hws),
      hnd ws (List.mem_reverse.mp hws)⟩
  have hbound : m1 < ((h.elements.reverse.map List.length)).prod := by
    rw [List.map_reverse, List.prod_reverse, ← hprod]
    exact hm1
  have hcore := decodeCompose_encodeParts h.elements.reverse m1 hcond hbound
  have hzip : W.zip h.elements
      = (encodeParts m1 h.elements.reverse).reverse.zip h.elements.reverse.reverse := by
    rw [hW, List.reverse_reverse]
  rw [← hsval]
  unfold HRID.decode
  simp only [pySplit_pyJoin hdel W hWne hWmem]
  rw [if_pos hlen]
  rw [← hzip] at hcore
  simp only [hcore]
  rw [hm1def]
  rcases hscrb : h.scramble with _ | _
  · simp
  · simp only [if_true]
    rw [unscramble_scramble (mod_inverse_modeq hgcd hinv) hn]

/-! ## Auxiliary lemmas for the claim theorems -/

/-- If some part of the pair list is absent from its word list, the Horner
loop fails with the word-not-found error, whatever the accumulator. -/
theorem decodeCompose_error : ∀ (l : List (String × List String)) (acc : Nat),
    (∃ pw ∈ l, pyIndex pw.2 pw.1 = none) →
    decodeCompose acc l = .error .formatError := by
  intro l
  induction l with
  | nil =>
    rintro acc ⟨pw, hmem, -⟩
    simp at hmem
  | cons q t ih =>
    rintro acc ⟨pw, hmem, hnone⟩
    rcases q with ⟨part, ws⟩
    simp only [decodeCompose]
    rcases hpi : pyIndex ws part with _ | idx
    · simp
    · rcases List.mem_cons.mp hmem with rfl | hmem2
      · rw [hpi] at hnone
        exact Option.noConfusion hnone
      · simp only []
        exact ih _ ⟨pw, hmem2, hnone⟩

/-- The encode loop is the indexing of the separately computed digit list:
the interleaved loop and the two-pass decomposition agree. -/
theorem encodeParts_eq_zipWith : ∀ (L : List (List String)) (n : Nat),
    encodeParts n L
      = List.zipWith (fun ws d => ws.getD d ("")) L (toDigits n (L.map List.length)) := by
  intro L
  induction L with
  | nil => intro n; rfl
  | cons ws rest ih =>
    intro n
    simp only [encodeParts, List.map_cons, toDigits, List.zipWith_cons_cons]
    rw [ih (n / ws.length)]

/-! ## Claim theorems -/

/-- Claim C9: for the codec with elements [[a, b], [x, y, z]], delimiter
dash and scrambling disabled (space_size 6): encode 0 = a-x, encode 1 = a-y,
encode 5 = b-z, decode of b-z = 5, decode of c-x fails with the format
error, and encode 6 fails with the range error. -/
theorem C9_concrete_example :
    (mkHRID ("-") (some [ElementSpec.list [("a"), ("b")], ElementSpec.list [("x"), ("y"), ("z")]])
        none false none).bind (fun h => h.encode 0) = .ok ("a-x") ∧
    (mkHRID ("-") (some [ElementSpec.list [("a"), ("b")], ElementSpec.list [("x"), ("y"), ("z")]])
        none false none).bind (fun h => h.encode 1) = .ok ("a-y") ∧
    (mkHRID ("-") (some [ElementSpec.list [("a"), ("b")], ElementSpec.list [("x"), ("y"), ("z")]])
        none false none).bind (fun h => h.encode 5) = .ok ("b-z") ∧
    (mkHRID ("-") (some [ElementSpec.list [("a"), ("b")], ElementSpec.list [("x"), ("y"), ("z")]])
        none false none).bind (fun h => h.decode ("b-z")) = .ok 5 ∧
    (mkHRID ("-") (some [ElementSpec.list [("a"), ("b")], ElementSpec.list [("x"), ("y"), ("z")]])
        none false none).bind (fun h => h.decode ("c-x")) = .error .formatError ∧
    (mkHRID ("-") (some [ElementSpec.list [("a"), ("b")], ElementSpec.list [("x"), ("y"), ("z")]])
        none false none).bind (fun h => h.encode 6) = .error .rangeError :=
  ⟨rfl, rfl, rfl, rfl, rfl, rfl⟩

/-- Claim C10: an empty elements sequence (and likewise an empty word-list
mapping) is silently replaced by the defaults, so construction with the
empty argument is literally the construction with no argument; in
particular it never yields a zero-element codec. -/
theorem C10_empty_arguments_default :
    (∀ (d : String) (wl : Option (List (String × List String))) (scr : Bool)
        (ss : Option (Nat → Nat)),
      mkHRID d (some []) wl scr ss = mkHRID d none wl scr ss) ∧
    (∀ (d : String) (els : Option (List ElementSpec)) (scr : Bool)
        (ss : Option (Nat → Nat)),
      mkHRID d els (some []) scr ss = mkHRID d els none scr ss) :=
  ⟨fun _ _ _ _ => rfl, fun _ _ _ _ => rfl⟩

/-- Claim C7, counterexample: at space_size 1 the unseeded coprime search
does not return 1; the constant list is consulted first and every integer is
coprime to 1. -/
theorem C7_counterexample : find_coprime 1 none ≠ .ok 1 := by
  intro h
  have h1 : find_coprime 1 none = .ok 2654435769 := rfl
  rw [h1] at h
  injection h with h2
  exact absurd h2 (by decide)

/-- Claim C7, amended: when space_size is 1 (and no scramble seed is given)
the coprime search returns the first fallback constant 2654435769, since
every integer is coprime to 1; the literal return of 1 at the end of
find_coprime is unreachable for space_size 1. -/
theorem C7_space_one_constant : find_coprime 1 none = .ok 2654435769 := rfl

/-- Claim C6: every successfully constructed codec has a scramble multiplier
coprime to the space size, a scramble inverse that is a genuine modular
inverse of it, and an inverse lying in [0, space_size); this covers every
construction path, the seeded search being quantified over all candidate
streams. -/
theorem C6_scramble_invariants {d : String} {els : Option (List ElementSpec)}
    {wl : Option (List (String × List String))} {scr : Bool}
    {ss : Option (Nat → Nat)} {h : HRID}
    (hmk : mkHRID d els wl scr ss = .ok h) :
    Nat.gcd h.scramble_multiplier h.space_size = 1 ∧
    h.scramble_multiplier * h.scramble_inverse ≡ 1 [MOD h.space_size] ∧
    h.scramble_inverse < h.space_size := by
  obtain ⟨-, -, -, -, -, hgcd, hinv⟩ := mkHRID_ok hmk
  exact ⟨hgcd, mod_inverse_modeq hgcd hinv, mod_inverse_lt hinv⟩

/-- Witness for C6 at a concrete construction. -/
theorem C6_scramble_invariants_witness :
    mkHRID ("-") (some [ElementSpec.list [("a"), ("b")], ElementSpec.list [("x"), ("y"), ("z")]])
        none true none = .ok ⟨"-", [["a", "b"], ["x", "y", "z"]], true, 6, 1640531527, 1⟩ ∧
    (Nat.gcd 1640531527 6 = 1 ∧ 1640531527 * 1 ≡ 1 [MOD 6] ∧ 1 < 6) :=
  ⟨rfl, C6_scramble_invariants (show
      mkHRID ("-") (some [ElementSpec.list [("a"), ("b")], ElementSpec.list [("x"), ("y"), ("z")]])
        none true none = .ok ⟨"-", [["a", "b"], ["x", "y", "z"]], true, 6, 1640531527, 1⟩
    from rfl)⟩

/-- Claim C4: on a constructed codec, encode fails with the range error
exactly when the argument is negative or at least space_size; every in-range
argument encodes successfully, and the two boundary inputs both fail. -/
theorem C4_range_enforcement {d : String} {els : Option (List ElementSpec)}
    {wl : Option (List (String × List String))} {scr : Bool}
    {ss : Option (Nat → Nat)} {h : HRID}
    (_hmk : mkHRID d els wl scr ss = .ok h) :
    (∀ n : Int, h.encode n = .error .rangeError ↔ (n < 0 ∨ (h.space_size : Int) ≤ n)) ∧
    (∀ n : Int, 0 ≤ n → n < (h.space_size : Int) → exceptOk (h.encode n) = true) ∧
    h.encode (-1) = .error .rangeError ∧
    h.encode (h.space_size : Int) = .error .rangeError := by
  have hiff : ∀ n : Int, h.encode n = .error .rangeError ↔ (n < 0 ∨ (h.space_size : Int) ≤ n) := by
    intro n
    unfold HRID.encode
    constructor
    · intro he
      by_contra hcon
      push_neg at hcon
      rw [if_pos ⟨by omega, by omega⟩] at he
      exact Except.noConfusion he
    · intro hn
      rw [if_neg (by omega)]
  refine ⟨hiff, ?_, ?_, ?_⟩
  · intro n h0 hlt
    unfold HRID.encode
    rw [if_pos ⟨h0, hlt⟩]
    rfl
  · exact (hiff (-1)).mpr (by omega)
  · exact (hiff ((h.space_size : Int))).mpr (by omega)

/-- Witness for C4 at a concrete construction. -/
theorem C4_range_enforcement_witness :
    HRID.encode ⟨"-", [["a", "b"], ["x", "y", "z"]], false, 6, 1640531527, 1⟩ (-1)
      = .error .rangeError ∧
    HRID.encode ⟨"-", [["a", "b"], ["x", "y", "z"]], false, 6, 1640531527, 1⟩ 6
      = .error .rangeError ∧
    exceptOk (HRID.encode ⟨"-", [["a", "b"], ["x", "y", "z"]], false, 6, 1640531527, 1⟩ 0)
      = true := by
  obtain ⟨h1, h2, h3, h4⟩ := C4_range_enforcement (show
      mkHRID ("-") (some [ElementSpec.list [("a"), ("b")], ElementSpec.list [("x"), ("y"), ("z")]])
        none false none = .ok ⟨"-", [["a", "b"], ["x", "y", "z"]], false, 6, 1640531527, 1⟩
    from rfl)
  exact ⟨h3, h4, h2 0 (by decide) (by decide)⟩

/-- Claim C3, counterexample: a configuration with a zero-length word list
does make construction fail, but with the uncaught division-by-zero error
from mod_inverse; the code defines no configuration error at all. -/
theorem C3_counterexample :
    mkHRID ("-") (some [ElementSpec.list []]) none true none = .error .zeroDivisionError := rfl

/-- Claim C3, amended: whenever element resolution produces a zero-length
word list, construction fails (with the division-by-zero error when
unseeded, or the empty-randint-range error when seeded) rather than raising
a dedicated configuration error, and no codec with space_size 0 is ever
successfully constructed. Resolution yielding zero elements cannot occur,
an empty elements argument being replaced by the defaults. -/
theorem C3_degenerate_construction :
    (∀ (d : String) (els : Option (List ElementSpec))
        (wl : Option (List (String × List String))) (scr : Bool) (ss : Option (Nat → Nat)),
      [] ∈ resolveElements (resolveWordLists wl) els →
      exceptOk (mkHRID d els wl scr ss) = false) ∧
    (∀ (d : String) (els : Option (List ElementSpec))
        (wl : Option (List (String × List String))) (scr : Bool) (ss : Option (Nat → Nat))
        (h : HRID), mkHRID d els wl scr ss = .ok h → 0 < h.space_size) := by
  constructor
  · intro d els wl scr ss hmem
    have hzero : ((resolveElements (resolveWordLists wl) els).map List.length).prod = 0 :=
      List.prod_eq_zero (List.mem_map.mpr ⟨[], hmem, rfl⟩)
    simp only [mkHRID, hzero]
    rcases ss with _ | rng
    · simp [find_coprime, mod_inverse, exceptOk]
    · simp [find_coprime, exceptOk]
  · intro d els wl scr ss h hmk
    exact (mkHRID_ok hmk).2.2.2.2.1

/-- Witness for C3 at a concrete degenerate configuration. -/
theorem C3_degenerate_construction_witness :
    exceptOk (mkHRID ("-") (some [ElementSpec.list []]) none false none) = false :=
  C3_degenerate_construction.1 ("-") (some [ElementSpec.list []]) none false none (by decide)

/-- Claim C1, counterexample: the round trip fails on a legitimate
configuration with duplicated words in an element: on the codec built from
the single element [a, a] with scrambling disabled, encode 1 produces the
word a, which decodes to 0, not 1. -/
theorem C1_counterexample :
    (mkHRID ("-") (some [ElementSpec.list [("a"), ("a")]]) none false none).bind
      (fun h => (h.encode 1).bind (fun s => h.decode s)) = .ok 0 ∧
    (Except.ok (0 : Int) : Except PyErr Int) ≠ .ok 1 := by
  refine ⟨rfl, ?_⟩
  intro hcontra
  injection hcontra with h2
  exact absurd h2 (by decide)

/-- Claim C1, amended: on every constructed codec whose delimiter is a
single character, where that character occurs in no word and each element
word list is duplicate-free, decode inverts encode on all of
[0, space_size), and encode inverts decode on every string encode
produces. -/
theorem C1_round_trip {d : String} {els : Option (List ElementSpec)}
    {wl : Option (List (String × List String))} {scr : Bool}
    {ss : Option (Nat → Nat)} {h : HRID} {c : Char}
    (hmk : mkHRID d els wl scr ss = .ok h)
    (hdel : h.delimiter.toList = [c])
    (hnd : ∀ ws ∈ h.elements, ws.Nodup)
    (hfree : ∀ ws ∈ h.elements, ∀ w ∈ ws, c ∉ w.toList) :
    ∀ n : Int, 0 ≤ n → n < (h.space_size : Int) →
      (h.encode n).bind (fun s => h.decode s) = .ok n ∧
      ∀ s : String, h.encode n = .ok s →
        (h.decode s).bind (fun m => h.encode m) = .ok s := by
  intro n hn0 hnlt
  obtain ⟨k, rfl⟩ : ∃ k : Nat, n = (k : Int) := ⟨n.toNat, (Int.toNat_of_nonneg hn0).symm⟩
  have hk : k < h.space_size := by exact_mod_cast hnlt
  have henc := encode_ok h k hk
  constructor
  · rw [henc]
    exact decode_encode hmk hdel hnd hfree hk henc
  · intro s hs
    have hdec := decode_encode hmk hdel hnd hfree hk hs
    rw [hdec]
    exact hs

/-- Witness for C1 at a concrete scrambling codec. -/
theorem C1_round_trip_witness :
    (HRID.encode ⟨"-", [["a", "b"], ["x", "y", "z"]], true, 6, 1640531527, 1⟩ 2).bind
      (fun s => HRID.decode ⟨"-", [["a", "b"], ["x", "y", "z"]], true, 6, 1640531527, 1⟩ s)
      = .ok 2 :=
  (C1_round_trip (show
      mkHRID ("-") (some [ElementSpec.list [("a"), ("b")], ElementSpec.list [("x"), ("y"), ("z")]])
        none true none = .ok ⟨"-", [["a", "b"], ["x", "y", "z"]], true, 6, 1640531527, 1⟩
    from rfl)
    (show (HRID.delimiter ⟨"-", [["a", "b"], ["x", "y", "z"]], true, 6, 1640531527, 1⟩).toList
        = [Char.ofNat 45] from rfl)
    (by decide) (by decide) 2 (by decide) (by decide)).1

/-- Claim C2, counterexample: encode is not injective on every
configuration: with duplicated words, 0 and 1 both encode to the word a. -/
theorem C2_counterexample :
    (mkHRID ("-") (some [ElementSpec.list [("a"), ("a")]]) none false none).bind
      (fun h => h.encode 0)
      = (mkHRID ("-") (some [ElementSpec.list [("a"), ("a")]]) none false none).bind
        (fun h => h.encode 1) ∧
    (mkHRID ("-") (some [ElementSpec.list [("a"), ("a")]]) none false none).bind
      (fun h => h.encode 0) = .ok ("a") :=
  ⟨rfl, rfl⟩

/-- Claim C2, amended: on every constructed codec whose delimiter is a
single character occurring in no word and whose element word lists are
duplicate-free, encode is injective on [0, space_size) (hence a bijection
onto the set of word sequences it produces). -/
theorem C2_encode_injective {d : String} {els : Option (List ElementSpec)}
    {wl : Option (List (String × List String))} {scr : Bool}
    {ss : Option (Nat → Nat)} {h : HRID} {c : Char}
    (hmk : mkHRID d els wl scr ss = .ok h)
    (hdel : h.delimiter.toList = [c])
    (hnd : ∀ ws ∈ h.elements, ws.Nodup)
    (hfree : ∀ ws ∈ h.elements, ∀ w ∈ ws, c ∉ w.toList) :
    ∀ n1 n2 : Int, 0 ≤ n1 → n1 < (h.space_size : Int) →
      0 ≤ n2 → n2 < (h.space_size : Int) →
      h.encode n1 = h.encode n2 → n1 = n2 := by
  intro n1 n2 h10 h1lt h20 h2lt heq
  obtain ⟨k1, rfl⟩ : ∃ k : Nat, n1 = (k : Int) := ⟨n1.toNat, (Int.toNat_of_nonneg h10).symm⟩
  obtain ⟨k2, rfl⟩ : ∃ k : Nat, n2 = (k : Int) := ⟨n2.toNat, (Int.toNat_of_nonneg h20).symm⟩
  have hk1 : k1 < h.space_size := by exact_mod_cast h1lt
  have hk2 : k2 < h.space_size := by exact_mod_cast h2lt
  have h1 := encode_ok h k1 hk1
  have hd1 := decode_encode hmk hdel hnd hfree hk1 h1
  have hd2 := decode_encode hmk hdel hnd hfree hk2 (heq ▸ h1)
  rw [hd1] at hd2
  injection hd2

/-- Witness for C2: two distinct in-range inputs of the concrete scrambling
codec encode differently. -/
theorem C2_encode_injective_witness :
    HRID.encode ⟨"-", [["a", "b"], ["x", "y", "z"]], true, 6, 1640531527, 1⟩ 1
      ≠ HRID.encode ⟨"-", [["a", "b"], ["x", "y", "z"]], true, 6, 1640531527, 1⟩ 2 := by
  intro heq
  have h12 := C2_encode_injective (show
      mkHRID ("-") (some [ElementSpec.list [("a"), ("b")], ElementSpec.list [("x"), ("y"), ("z")]])
        none true none = .ok ⟨"-", [["a", "b"], ["x", "y", "z"]], true, 6, 1640531527, 1⟩
    from rfl)
    (show (HRID.delimiter ⟨"-", [["a", "b"], ["x", "y", "z"]], true, 6, 1640531527, 1⟩).toList
        = [Char.ofNat 45] from rfl)
    (by decide) (by decide) 1 2 (by decide) (by decide) (by decide) (by decide) heq
  exact absurd h12 (by decide)

/-- Claim C5: on a constructed codec, decode fails with the format error
when the split part count differs from the element count, and when the
parts match up but some part is absent from its element word list; in both
cases the error is the whole result. -/
theorem C5_format_enforcement {d : String} {els : Option (List ElementSpec)}
    {wl : Option (List (String × List String))} {scr : Bool}
    {ss : Option (Nat → Nat)} {h : HRID}
    (_hmk : mkHRID d els wl scr ss = .ok h) :
    ∀ (s : String) (parts : List String), pySplit h.delimiter s = .ok parts →
      (parts.length ≠ h.elements.length → h.decode s = .error .formatError) ∧
      (parts.length = h.elements.length →
        (∃ pw ∈ parts.zip h.elements, pyIndex pw.2 pw.1 = none) →
        h.decode s = .error .formatError) := by
  intro s parts hsp
  unfold HRID.decode
  constructor
  · intro hne
    simp only [hsp]
    rw [if_neg hne]
  · intro heq hex
    simp only [hsp]
    rw [if_pos heq, decodeCompose_error (parts.zip h.elements) 0 hex]

/-- Witness for C5: a one-part input and an unknown-word input both fail on
the concrete codec. -/
theorem C5_format_enforcement_witness :
    HRID.decode ⟨"-", [["a", "b"], ["x", "y", "z"]], false, 6, 1640531527, 1⟩ ("a")
      = .error .formatError ∧
    HRID.decode ⟨"-", [["a", "b"], ["x", "y", "z"]], false, 6, 1640531527, 1⟩ ("c-x")
      = .error .formatError := by
  have hc5 := C5_format_enforcement (show
      mkHRID ("-") (some [ElementSpec.list [("a"), ("b")], ElementSpec.list [("x"), ("y"), ("z")]])
        none false none = .ok ⟨"-", [["a", "b"], ["x", "y", "z"]], false, 6, 1640531527, 1⟩
    from rfl)
  constructor
  · exact (hc5 ("a") [("a")] rfl).1 (by decide)
  · exact (hc5 ("c-x") [("c"), ("x")] rfl).2 rfl ⟨(("c"), ["a", "b"]), by decide, rfl⟩

/-- Claim C8: with scrambling disabled, encode is exactly the plain
mixed-radix decomposition with no permutation, stated against the two-pass
decomposition worded as in the spec. -/
theorem C8_scramble_disabled {d : String} {els : Option (List ElementSpec)}
    {wl : Option (List (String × List String))}
    {ss : Option (Nat → Nat)} {h : HRID}
    (hmk : mkHRID d els wl false ss = .ok h) :
    ∀ n : Nat, n < h.space_size →
      h.encode (n : Int) = .ok (specMixedRadixEncode h.delimiter h.elements n) := by
  intro n hn
  obtain ⟨-, -, hscr, -, -, -, -⟩ := mkHRID_ok hmk
  rw [encode_ok h n hn, hscr]
  simp only [Bool.false_eq_true, if_false]
  unfold specMixedRadixEncode
  rw [encodeParts_eq_zipWith]

/-- Witness for C8 at a concrete unscrambled codec. -/
theorem C8_scramble_disabled_witness :
    HRID.encode ⟨"-", [["a", "b"], ["x", "y", "z"]], false, 6, 1640531527, 1⟩ 4
      = .ok (specMixedRadixEncode ("-") [["a", "b"], ["x", "y", "z"]] 4) :=
  C8_scramble_disabled (show
      mkHRID ("-") (some [ElementSpec.list [("a"), ("b")], ElementSpec.list [("x"), ("y"), ("z")]])
        none false none = .ok ⟨"-", [["a", "b"], ["x", "y", "z"]], false, 6, 1640531527, 1⟩
    from rfl) 4 (by decide)
